import Mathlib

/-!
Verification of the audio segmentation and split-editing engine of the
`splitter` repository (`src/components/AudioProcessor.tsx`).

Times and sample values are modelled as rationals (`ℚ`); the source operates
on JavaScript doubles.  Machine-level square roots (`Math.sqrt`, used for the
RMS profile and the standard deviation) have no exact rational counterpart, so
the pre-square-root values (`meanSquares`, `variance`) are embedded exactly and
the rooted values (`volumes`, `stdDev`) are passed as parameters characterised
by `x * x = value ∧ 0 ≤ x` where a theorem needs them.
-/

namespace Splitter

/-- The `Split` record of `AudioSplitterApp.tsx`:
`{ id: string; name: string; startTime: number; endTime: number }`. -/
structure Split where
  id : String
  name : String
  startTime : ℚ
  endTime : ℚ
deriving DecidableEq, Repr, Inhabited

/-- Which handle of a split a drag resizes (`draggingSplit.edge` in
`AudioProcessor.tsx`, values `'start'` and `'end'`). -/
inductive Edge where
  | start
  | stop
deriving DecidableEq, Repr

/-- Comparator used by `addSplit` (line 656):
`sort((a, b) => a.startTime - b.startTime)`. -/
def leStart (a b : Split) : Prop := a.startTime ≤ b.startTime

instance : DecidableRel leStart := fun a b =>
  inferInstanceAs (Decidable (a.startTime ≤ b.startTime))

instance : IsTotal Split leStart := ⟨fun a b => le_total a.startTime b.startTime⟩

instance : IsTrans Split leStart := ⟨fun _ _ _ h h2 => le_trans h h2⟩

/-- Two splits do not overlap on `[startTime, endTime)`. -/
def overlapFree (a b : Split) : Prop :=
  a.endTime ≤ b.startTime ∨ b.endTime ≤ a.startTime

/-- The store is sorted by `startTime` ascending. -/
def SortedByStart (l : List Split) : Prop :=
  l.Pairwise leStart

/-- The intervals `[startTime, endTime)` of the store are pairwise
non-overlapping. -/
def NoOverlap (l : List Split) : Prop :=
  l.Pairwise overlapFree

/-- Every split is within bounds and non-degenerate. -/
def InBounds (duration : ℚ) (l : List Split) : Prop :=
  ∀ s ∈ l, 0 ≤ s.startTime ∧ s.startTime < s.endTime ∧ s.endTime ≤ duration

/-- All Split-Store invariants of the spec together. -/
def StoreInv (duration : ℚ) (l : List Split) : Prop :=
  SortedByStart l ∧ NoOverlap l ∧ InBounds duration l

/-- Overlap check and sorted insertion of `addSplit`
(`AudioProcessor.tsx` lines 650-657), factored over the already-constructed
new split: the new split is accepted iff for every existing split
`newSplit.endTime <= existing.startTime || newSplit.startTime >= existing.endTime`;
on success the list is re-sorted by `startTime` (stable JS `Array.sort`,
modelled by the stable `insertionSort`). -/
def addSplitWith (splits : List Split) (newSplit : Split) : List Split :=
  if splits.all fun ex =>
      decide (newSplit.endTime ≤ ex.startTime) || decide (ex.endTime ≤ newSplit.startTime)
  then List.insertionSort leStart (splits ++ [newSplit])
  else splits

/-- The `addSplit` handler (lines 639-658): guard on the playhead position,
construction of the one-minute default split named `"Song " + (count + 1)`,
then the overlap-checked insertion.  The source id is `split-${Date.now()}`
(wall-clock dependent), so the id is a parameter here. -/
def addSplit (currentTime duration : ℚ) (newId : String) (splits : List Split) :
    List Split :=
  if duration = 0 ∨ currentTime < 0 ∨ duration ≤ currentTime then splits
  else
    addSplitWith splits
      { id := newId
        name := "Song " ++ toString (splits.length + 1)
        startTime := max 0 currentTime
        endTime := min (currentTime + 60) duration }

/-- The `removeSplit` handler (lines 660-662):
`splits.filter((_, i) => i !== index)`. -/
def removeSplit (splits : List Split) (i : ℕ) : List Split :=
  splits.eraseIdx i

/-- The `finishEditing` handler (lines 669-677): overwrite the name of the
split at the edited index, leaving everything else untouched. -/
def renameSplit (splits : List Split) (i : ℕ) (newName : String) : List Split :=
  match splits[i]? with
  | some s => splits.set i { s with name := newName }
  | none => splits

/-- Clamping of the dragged handle in `handleCanvasMouseMove`
(lines 728-732): `start = max(0, min(newTime, endTime - 1))`,
`end = max(startTime + 1, min(newTime, duration))`. -/
def adjustSplit (edge : Edge) (s : Split) (newTime duration : ℚ) : Split :=
  match edge with
  | .start => { s with startTime := max 0 (min newTime (s.endTime - 1)) }
  | .stop => { s with endTime := max (s.startTime + 1) (min newTime duration) }

/-- The per-split validity filter applied after a drag (lines 735-739):
`s.startTime >= 0 && s.endTime <= duration && s.startTime < s.endTime`. -/
def validBounds (duration : ℚ) (s : Split) : Bool :=
  decide (0 ≤ s.startTime) && decide (s.endTime ≤ duration) &&
    decide (s.startTime < s.endTime)

/-- The resize branch of `handleCanvasMouseMove` (lines 718-747): when the
dragged index is in range, the dragged edge is clamped and the whole list is
filtered by the per-split validity check; otherwise the store is unchanged.
The source computes `newTime = clamp01(x / width) * duration`, so reachable
calls have `0 ≤ newTime ≤ duration`. -/
def resizeEdge (splits : List Split) (i : ℕ) (edge : Edge) (newTime duration : ℚ) :
    List Split :=
  if i < splits.length then
    (splits.set i (adjustSplit edge (splits.getD i default) newTime duration)).filter
      (validBounds duration)
  else splits

/-- One Split-Store mutation, for stating properties of call sequences. -/
inductive EditOp where
  | add (currentTime duration : ℚ) (newId : String)
  | remove (i : ℕ)
  | rename (i : ℕ) (newName : String)
  | resize (i : ℕ) (edge : Edge) (newTime duration : ℚ)

/-- Whether an operation is a resize. -/
def EditOp.isResize : EditOp → Bool
  | .resize _ _ _ _ => true
  | _ => false

/-- Apply one mutation to the store. -/
def applyOp (splits : List Split) : EditOp → List Split
  | .add ct dur newId => addSplit ct dur newId splits
  | .remove i => removeSplit splits i
  | .rename i n => renameSplit splits i n
  | .resize i e t dur => resizeEdge splits i e t dur

/-- Apply a sequence of mutations left to right. -/
def applyOps (splits : List Split) (ops : List EditOp) : List Split :=
  ops.foldl applyOp splits

/-! Detection pipeline (`detectSplits`, `AudioProcessor.tsx` lines 237-377). -/

/-- A scored potential split point (`potentialSplits` entries, line 283). -/
structure Candidate where
  time : ℚ
  confidence : ℚ
deriving DecidableEq, Repr

/-- A merged quiet interval (`quietRegions` entries, line 326).  The source
field `end` is a Lean keyword, rendered `stop`. -/
structure Region where
  start : ℚ
  stop : ℚ
deriving DecidableEq, Repr

/-- Arithmetic mean as computed throughout `detectSplits`: sum divided by
length (division by zero yields `0` in `ℚ` where the source would produce
`NaN`; all uses below are on nonempty slices). -/
def mean (l : List ℚ) : ℚ := l.sum / l.length

/-- Per-window mean of squared samples (lines 247-257 before the
`Math.sqrt`): consecutive windows of `windowSize` samples, the last window
possibly shorter.  The window RMS of the source is the square root of each
entry.  `windowSize = sampleRate * 0.5` and is at least 1 in any real call. -/
def meanSquares (windowSize : ℕ) : List ℚ → List ℚ
  | [] => []
  | x :: xs =>
    mean (((x :: xs).take windowSize).map fun v => v * v) ::
      meanSquares windowSize (xs.drop (windowSize - 1))
termination_by l => l.length
decreasing_by simp [List.length_drop]; omega

/-- Centred moving average over the volume profile (lines 260-271):
`smoothed[i]` is the mean of `volumes[max(0, i - ⌊W/2⌋) .. min(len, i + ⌊W/2⌋ + 1))`. -/
def smoothVolumes (smoothingWindowSamples : ℕ) (volumes : List ℚ) : List ℚ :=
  (List.range volumes.length).map fun i =>
    let s := i - smoothingWindowSamples / 2
    let e := min volumes.length (i + smoothingWindowSamples / 2 + 1)
    mean ((volumes.drop s).take (e - s))

/-- Population variance of the smoothed profile (lines 275-276 before the
`Math.sqrt`): mean squared deviation from the average.  The source standard
deviation is its square root. -/
def variance (l : List ℚ) : ℚ :=
  ((l.map fun v => (v - mean l) ^ 2).sum) / l.length

/-- Combined threshold for criterion 1 (lines 279-280):
`max(thresholdLinear, max(avg * 0.15, avg - stdDev * 0.8))`, where the source
computes `thresholdLinear = 10^(sensitivityDb / 20)` and
`stdDev = sqrt(variance)`. -/
def actualThreshold (thresholdLinear avg stdDev : ℚ) : ℚ :=
  max thresholdLinear (max (avg * (15 / 100)) (avg - stdDev * (8 / 10)))

/-- Criterion 3, sustained volume drop (lines 303-311): the current smoothed
value is below half the average of the preceding `min(W, i)` entries and below
half the average of the following `min(W, len - i)` entries (the following
slice starts at `i` itself, as in the source). -/
def sustainedDrop (W : ℕ) (smoothed : List ℚ) (i : ℕ) : Bool :=
  let lookAhead := min W (smoothed.length - i)
  let lookBehind := min W i
  let avgBefore := mean ((smoothed.drop (i - lookBehind)).take lookBehind)
  let avgAfter := mean ((smoothed.drop i).take lookAhead)
  decide (smoothed.getD i 0 < avgBefore * (1 / 2)) &&
    decide (smoothed.getD i 0 < avgAfter * (1 / 2))

/-- Confidence of interior index `i` (lines 291-318): the sum of the four
additive criteria.  `lastAccepted` is the time of the last candidate pushed so
far (`potentialSplits[potentialSplits.length - 1]`), `none` when there is
none. -/
def confidence (threshold minSongDuration windowSec : ℚ) (W : ℕ)
    (smoothed : List ℚ) (lastAccepted : Option ℚ) (i : ℕ) : ℚ :=
  (if smoothed.getD i 0 < threshold then 3 / 10 else 0) +
    (if smoothed.getD i 0 < smoothed.getD (i - 1) 0 ∧
        smoothed.getD i 0 < smoothed.getD (i + 1) 0 then 2 / 10 else 0) +
    (if sustainedDrop W smoothed i then 3 / 10 else 0) +
    (match lastAccepted with
     | none => 2 / 10
     | some t => if minSongDuration * (1 / 2) < i * windowSec - t then 2 / 10 else 0)

/-- The candidate scoring loop (lines 283-323): interior indices
`1 ≤ i < len - 1` in order; a candidate at time `i * windowSec` is pushed when
its confidence exceeds `0.4`. -/
def scoreLoop (threshold minSongDuration windowSec : ℚ) (W : ℕ)
    (smoothed : List ℚ) : List Candidate :=
  (List.range' 1 (smoothed.length - 2)).foldl
    (fun acc i =>
      let c := confidence threshold minSongDuration windowSec W smoothed
        ((acc.getLast?).map Candidate.time) i
      if 2 / 5 < c then acc ++ [⟨i * windowSec, c⟩] else acc)
    []

/-- Quiet-region construction (lines 326-342): each candidate with confidence
above `0.6` contributes the window `[time - minSilence/2, time + minSilence/2]`
clamped to `[0, totalDuration]`; a window starting at or before the previous
region's end extends that region, otherwise it is appended. -/
def quietRegionsOf (minSilenceDuration totalDuration : ℚ)
    (candidates : List Candidate) : List Region :=
  candidates.foldl
    (fun acc c =>
      if (3 : ℚ) / 5 < c.confidence then
        let s := max 0 (c.time - minSilenceDuration / 2)
        let e := min totalDuration (c.time + minSilenceDuration / 2)
        match acc.getLast? with
        | some last =>
          if s ≤ last.stop then acc.dropLast ++ [{ last with stop := max last.stop e }]
          else acc ++ [⟨s, e⟩]
        | none => acc ++ [⟨s, e⟩]
      else acc)
    []

/-- The song-extraction loop (lines 344-363), returning the emitted splits
together with the final `songStart` and `songIndex`: a region whose start is
at least `minSongDuration` past `songStart` emits
`[songStart, region.start)` named `"Song N"` with id `"song-N"` and advances
`songStart` to the region's end; any other region changes nothing. -/
def extractSongs (minSongDuration : ℚ) (songStart : ℚ) (songIndex : ℕ) :
    List Region → List Split × ℚ × ℕ
  | [] => ([], songStart, songIndex)
  | r :: rest =>
    if minSongDuration ≤ r.start - songStart then
      let rec_ := extractSongs minSongDuration r.stop (songIndex + 1) rest
      (⟨"song-" ++ toString songIndex, "Song " ++ toString songIndex,
          songStart, r.start⟩ :: rec_.1, rec_.2)
    else extractSongs minSongDuration songStart songIndex rest

/-- Steps 2 and 3 of segmentation (lines 344-376): the extraction loop from
`songStart = 0`, `songIndex = 1`, followed by the trailing song when at least
`minSongDuration` remains before `totalDuration`. -/
def songsOfRegions (minSongDuration totalDuration : ℚ) (regions : List Region) :
    List Split :=
  let r := extractSongs minSongDuration 0 1 regions
  if minSongDuration ≤ totalDuration - r.2.1 then
    r.1 ++ [⟨"song-" ++ toString r.2.2, "Song " ++ toString r.2.2, r.2.1, totalDuration⟩]
  else r.1

/-- The whole of `detectSplits` downstream of the two `Math.sqrt` calls
(lines 260-377).  `volumes` is the RMS profile (square roots of
`meanSquares`), `stdDev` the square root of `variance` of the smoothed
profile, and `thresholdLinear = 10^(sensitivityDb/20)`; these three are
parameters because exact square roots and powers do not exist in `ℚ`.
`windowSec = windowSize / sampleRate` (always `0.5` in the source) and
`totalDuration = audioData.length / sampleRate`. -/
def detectFromVolumes (thresholdLinear minSilenceDuration minSongDuration
    windowSec totalDuration stdDev : ℚ) (W : ℕ) (volumes : List ℚ) :
    List Split :=
  let smoothed := smoothVolumes W volumes
  let avg := mean smoothed
  let thr := actualThreshold thresholdLinear avg stdDev
  songsOfRegions minSongDuration totalDuration
    (quietRegionsOf minSilenceDuration totalDuration
      (scoreLoop thr minSongDuration windowSec W smoothed))

/-! WAV export (`audioBufferToWav`, lines 894-941, and the per-split slicing
of `downloadSplits`, lines 851-892). -/

/-- The slice of an `AudioBuffer` the exporter sees: channel count, frame
count, sample rate, and per-channel sample access.  Sample access is total
(`channelData ch i`), matching the source's silence fill
`channelData[startSample + i] || 0` for out-of-range reads. -/
structure AudioBuffer where
  numberOfChannels : ℕ
  length : ℕ
  sampleRate : ℕ
  channelData : ℕ → ℕ → ℚ

/-- Character codes of a tag string, as written by `writeString`
(lines 910-914, `string.charCodeAt(i)`). -/
def asciiCodes (s : String) : List ℕ := s.data.map Char.toNat

/-- Little-endian bytes of a 16-bit field (`view.setUint16(_, n, true)`). -/
def le16 (n : ℕ) : List ℕ := [n % 256, n / 256 % 256]

/-- Little-endian bytes of a 32-bit field (`view.setUint32(_, n, true)`). -/
def le32 (n : ℕ) : List ℕ :=
  [n % 256, n / 256 % 256, n / 2 ^ 16 % 256, n / 2 ^ 24 % 256]

/-- The 44 header bytes written at offsets 0-43 (lines 916-928), in offset
order. -/
def wavHeader (channels sampleRate frames : ℕ) : List ℕ :=
  let bytesPerSample := 2
  let blockAlign := channels * bytesPerSample
  let byteRate := sampleRate * blockAlign
  let dataSize := frames * blockAlign
  let bufferSize := 44 + dataSize
  asciiCodes "RIFF" ++ le32 (bufferSize - 8) ++ asciiCodes "WAVE" ++
    asciiCodes "fmt " ++ le32 16 ++ le16 1 ++ le16 channels ++ le32 sampleRate ++
    le32 byteRate ++ le16 blockAlign ++ le16 16 ++ asciiCodes "data" ++
    le32 dataSize

/-- The clamp on line 934: `Math.max(-1, Math.min(1, sample))`. -/
def clampSample (q : ℚ) : ℚ := max (-1) (min 1 q)

/-- JavaScript's number-to-integer coercion applied by
`DataView.setInt16` (ECMA-262 `ToInt16`): truncation toward zero. -/
def jsTrunc (q : ℚ) : ℤ := if 0 ≤ q then ⌊q⌋ else -⌊-q⌋

/-- JavaScript's `Math.round`: floor of the value plus one half. -/
def jsRound (q : ℚ) : ℤ := ⌊q + 1 / 2⌋

/-- Two's-complement little-endian bytes of a 16-bit integer write. -/
def int16le (v : ℤ) : List ℕ :=
  [((v % 65536).toNat) % 256, ((v % 65536).toNat) / 256]

/-- The two bytes written for one sample (line 934-935):
`view.setInt16(offset, clamp(sample) * 0x7FFF, true)`. -/
def encodeSample (q : ℚ) : List ℕ := int16le (jsTrunc (clampSample q * 32767))

/-- The bytes of one frame: the channels of sample index `i` in order
(inner loop of lines 932-938). -/
def frameBytes (b : AudioBuffer) (i : ℕ) : List ℕ :=
  (List.range b.numberOfChannels).flatMap fun ch =>
    encodeSample (b.channelData ch i)

/-- The interleaved 16-bit sample data written at offsets 44.. (lines
930-938): frames in order, channels within each frame. -/
def wavData (b : AudioBuffer) : List ℕ :=
  (List.range b.length).flatMap (frameBytes b)

/-- Little-endian recombination of a byte list, for stating what the
multi-byte fields mean. -/
def leValue : List ℕ → ℕ
  | [] => 0
  | bt :: rest => bt + 256 * leValue rest

/-- `audioBufferToWav` (lines 895-941): the 44-byte header followed by the
interleaved sample data. -/
def audioBufferToWav (b : AudioBuffer) : List ℕ :=
  wavHeader b.numberOfChannels b.sampleRate b.length ++ wavData b

/-! Helper lemmas about the Split Store. -/

/-- Non-overlap of two splits is a symmetric relation. -/
theorem overlapFree_symm {a b : Split} (h : overlapFree a b) : overlapFree b a :=
  h.symm

/-- A proposed split overlapping some existing split is rejected:
the store is returned unchanged. -/
theorem addSplitWith_of_overlap (l : List Split) (s : Split)
    (h : ∃ ex ∈ l, ex.startTime < s.endTime ∧ s.startTime < ex.endTime) :
    addSplitWith l s = l := by
  obtain ⟨ex, hmem, h1, h2⟩ := h
  rw [addSplitWith, if_neg]
  intro hall
  have hex := List.all_eq_true.mp hall ex hmem
  simp only [Bool.or_eq_true, decide_eq_true_eq] at hex
  rcases hex with h3 | h3
  · exact absurd h3 (not_le.mpr h1)
  · exact absurd h3 (not_le.mpr h2)

/-- A proposed split overlapping nothing is appended and the store
re-sorted. -/
theorem addSplitWith_of_free (l : List Split) (s : Split)
    (h : ∀ ex ∈ l, s.endTime ≤ ex.startTime ∨ ex.endTime ≤ s.startTime) :
    addSplitWith l s = List.insertionSort leStart (l ++ [s]) := by
  rw [addSplitWith, if_pos]
  apply List.all_eq_true.mpr
  intro x hx
  simp only [Bool.or_eq_true, decide_eq_true_eq]
  exact h x hx

/-- Sorting by `startTime` yields a store sorted by `startTime`. -/
theorem sortedByStart_insertionSort (l : List Split) :
    SortedByStart (List.insertionSort leStart l) :=
  List.sorted_insertionSort leStart l

/-- The re-sorting inside `addSplit` preserves pairwise non-overlap. -/
theorem noOverlap_insertionSort (l : List Split) (h : NoOverlap l) :
    NoOverlap (List.insertionSort leStart l) :=
  (List.Perm.pairwise_iff (fun hx => overlapFree_symm hx)
    (List.perm_insertionSort leStart l)).mpr h

/-- `addSplit` preserves sortedness and non-overlap. -/
theorem addSplit_preserves (ct dur : ℚ) (nid : String) (l : List Split)
    (hs : SortedByStart l) (hn : NoOverlap l) :
    SortedByStart (addSplit ct dur nid l) ∧ NoOverlap (addSplit ct dur nid l) := by
  rw [addSplit]
  split
  · exact ⟨hs, hn⟩
  · rw [addSplitWith]
    split
    · next hall =>
      refine ⟨sortedByStart_insertionSort _, noOverlap_insertionSort _ ?_⟩
      rw [NoOverlap, List.pairwise_append]
      refine ⟨hn, List.pairwise_singleton _ _, ?_⟩
      intro a ha b hb
      rw [List.mem_singleton] at hb
      subst hb
      have hx := List.all_eq_true.mp hall a ha
      simp only [Bool.or_eq_true, decide_eq_true_eq] at hx
      exact hx.symm
    · exact ⟨hs, hn⟩

/-- `removeSplit` preserves sortedness and non-overlap. -/
theorem removeSplit_preserves (l : List Split) (i : ℕ)
    (hs : SortedByStart l) (hn : NoOverlap l) :
    SortedByStart (removeSplit l i) ∧ NoOverlap (removeSplit l i) :=
  ⟨hs.sublist (List.eraseIdx_sublist l i), hn.sublist (List.eraseIdx_sublist l i)⟩

/-- The time fields of a split. -/
def timesOf (s : Split) : ℚ × ℚ := (s.startTime, s.endTime)

/-- Setting an index to the value it already holds is the identity. -/
theorem set_self_of_getElem? {α : Type _} :
    ∀ (l : List α) (i : ℕ) (a : α), l[i]? = some a → l.set i a = l
  | [], i, a, h => by simp at h
  | x :: xs, 0, a, h => by
    simp only [List.getElem?_cons_zero, Option.some.injEq] at h
    simp [h]
  | x :: xs, i + 1, a, h => by
    simp only [List.getElem?_cons_succ] at h
    simp [List.set, set_self_of_getElem? xs i a h]

/-- Renaming does not change the time fields of the store. -/
theorem map_timesOf_rename (l : List Split) (i : ℕ) (n : String) :
    (renameSplit l i n).map timesOf = l.map timesOf := by
  rw [renameSplit]
  cases h : l[i]? with
  | none => rfl
  | some s =>
    rw [List.map_set]
    have ht : timesOf { s with name := n } = timesOf s := rfl
    rw [ht]
    apply set_self_of_getElem?
    rw [List.getElem?_map, h]
    rfl

/-- Sortedness depends only on the time fields. -/
theorem sortedByStart_iff_times (l : List Split) :
    SortedByStart l ↔ (l.map timesOf).Pairwise fun p q => p.1 ≤ q.1 := by
  rw [SortedByStart, List.pairwise_map]
  exact Iff.rfl

/-- Non-overlap depends only on the time fields. -/
theorem noOverlap_iff_times (l : List Split) :
    NoOverlap l ↔ (l.map timesOf).Pairwise fun p q => p.2 ≤ q.1 ∨ q.2 ≤ p.1 := by
  rw [NoOverlap, List.pairwise_map]
  exact Iff.rfl

/-- `renameSplit` preserves sortedness and non-overlap. -/
theorem renameSplit_preserves (l : List Split) (i : ℕ) (n : String)
    (hs : SortedByStart l) (hn : NoOverlap l) :
    SortedByStart (renameSplit l i n) ∧ NoOverlap (renameSplit l i n) := by
  constructor
  · rw [sortedByStart_iff_times, map_timesOf_rename, ← sortedByStart_iff_times]
    exact hs
  · rw [noOverlap_iff_times, map_timesOf_rename, ← noOverlap_iff_times]
    exact hn

/-- Everything surviving a resize passes the per-split validity filter. -/
theorem resizeEdge_mem_valid (l : List Split) (i : ℕ) (e : Edge) (t dur : ℚ)
    (h : i < l.length) : ∀ s ∈ resizeEdge l i e t dur, validBounds dur s = true := by
  intro s hs
  rw [resizeEdge, if_pos h] at hs
  exact (List.mem_filter.mp hs).2

/-! Claim C1. -/

/-- C1, counterexample: from a store satisfying all invariants
(`[0,10)` and `[10,20)` with total duration 20), dragging the end of the
first split to time 15 leaves the store with two overlapping splits, so the
claimed invariant preservation over all four operations is false for
`resizeEdge`. -/
theorem resize_breaks_invariants :
    StoreInv 20 [⟨"a", "A", 0, 10⟩, ⟨"b", "B", 10, 20⟩] ∧
    resizeEdge [⟨"a", "A", 0, 10⟩, ⟨"b", "B", 10, 20⟩] 0 .stop 15 20 =
      [⟨"a", "A", 0, 15⟩, ⟨"b", "B", 10, 20⟩] ∧
    ¬ NoOverlap (resizeEdge [⟨"a", "A", 0, 10⟩, ⟨"b", "B", 10, 20⟩] 0 .stop 15 20) := by
  have hres : resizeEdge [⟨"a", "A", 0, 10⟩, ⟨"b", "B", 10, 20⟩] 0 .stop 15 20 =
      [⟨"a", "A", 0, 15⟩, ⟨"b", "B", 10, 20⟩] := by
    norm_num [resizeEdge, adjustSplit, validBounds, List.filter]
  refine ⟨⟨?_, ?_, ?_⟩, hres, ?_⟩
  · norm_num [SortedByStart, leStart, List.pairwise_cons]
  · norm_num [NoOverlap, overlapFree, List.pairwise_cons]
  · intro s hs
    rcases List.mem_cons.mp hs with rfl | hs
    · norm_num
    · rcases List.mem_cons.mp hs with rfl | hs
      · norm_num
      · simp at hs
  · rw [hres]
    norm_num [NoOverlap, overlapFree, List.pairwise_cons]

/-- C1 (amended): every sequence of `add`, `remove` and `rename` calls
preserves sortedness and pairwise non-overlap, while a `resizeEdge` call
only guarantees that every remaining split individually satisfies
`0 ≤ startTime`, `endTime ≤ duration` and `startTime < endTime`; it can leave
the store unsorted or overlapping (see the counterexample). -/
theorem store_ops_invariants :
    (∀ (splits : List Split) (ops : List EditOp), SortedByStart splits →
      NoOverlap splits → (∀ op ∈ ops, op.isResize = false) →
      SortedByStart (applyOps splits ops) ∧ NoOverlap (applyOps splits ops)) ∧
    (∀ (splits : List Split) (i : ℕ) (e : Edge) (t dur : ℚ), i < splits.length →
      ∀ s ∈ resizeEdge splits i e t dur, validBounds dur s = true) := by
  constructor
  · intro splits ops
    induction ops generalizing splits with
    | nil => exact fun hs hn _ => ⟨hs, hn⟩
    | cons op rest ih =>
      intro hs hn hops
      have hop : op.isResize = false := hops op (List.mem_cons_self op rest)
      have hrest : ∀ o ∈ rest, o.isResize = false := fun o ho =>
        hops o (List.mem_cons_of_mem op ho)
      have hstep : SortedByStart (applyOp splits op) ∧ NoOverlap (applyOp splits op) := by
        cases op with
        | add ct dur nid => exact addSplit_preserves ct dur nid splits hs hn
        | remove i => exact removeSplit_preserves splits i hs hn
        | rename i n => exact renameSplit_preserves splits i n hs hn
        | resize i e t dur => simp [EditOp.isResize] at hop
      exact ih (applyOp splits op) hstep.1 hstep.2 hrest
  · intro splits i e t dur h
    exact resizeEdge_mem_valid splits i e t dur h

/-- Witness for C1's amended theorem at a concrete store and call
sequence. -/
theorem store_ops_invariants_witness :
    (SortedByStart (applyOps [⟨"a", "A", 0, 10⟩, ⟨"b", "B", 70, 80⟩]
        [.add 20 100 "c", .rename 0 "X", .remove 2]) ∧
      NoOverlap (applyOps [⟨"a", "A", 0, 10⟩, ⟨"b", "B", 70, 80⟩]
        [.add 20 100 "c", .rename 0 "X", .remove 2])) ∧
    (∀ s ∈ resizeEdge [⟨"a", "A", 0, 10⟩, ⟨"b", "B", 70, 80⟩] 0 .stop 75 80,
      validBounds 80 s = true) := by
  constructor
  · apply store_ops_invariants.1
    · norm_num [SortedByStart, leStart, List.pairwise_cons]
    · norm_num [NoOverlap, overlapFree, List.pairwise_cons]
    · intro op hop
      rcases List.mem_cons.mp hop with rfl | hop
      · rfl
      · rcases List.mem_cons.mp hop with rfl | hop
        · rfl
        · rcases List.mem_cons.mp hop with rfl | hop
          · rfl
          · simp at hop
  · apply store_ops_invariants.2
    norm_num

/-! Claim C2. -/

/-- C2, counterexample: with store `[0,10)`, `[10,20)` and total duration 20,
`resizeEdge` on split 0's end handle with `newTime = 15` sets the acting
split's end to 15 (overlapping split `"b"`), yet split `"b"` remains in the
store — the claim that the now-overlapping sibling is removed is false. -/
theorem resize_does_not_drop_overlapped_sibling :
    resizeEdge [⟨"a", "A", 0, 10⟩, ⟨"b", "B", 10, 20⟩] 0 .stop 15 20 =
      [⟨"a", "A", 0, 15⟩, ⟨"b", "B", 10, 20⟩] ∧
    (⟨"b", "B", 10, 20⟩ : Split) ∈
      resizeEdge [⟨"a", "A", 0, 10⟩, ⟨"b", "B", 10, 20⟩] 0 .stop 15 20 ∧
    ¬ overlapFree ⟨"a", "A", 0, 15⟩ ⟨"b", "B", 10, 20⟩ := by
  have hres : resizeEdge [⟨"a", "A", 0, 10⟩, ⟨"b", "B", 10, 20⟩] 0 .stop 15 20 =
      [⟨"a", "A", 0, 15⟩, ⟨"b", "B", 10, 20⟩] := by
    norm_num [resizeEdge, adjustSplit, validBounds, List.filter]
  refine ⟨hres, ?_, ?_⟩
  · rw [hres]
    simp
  · norm_num [overlapFree]

/-- C2 (amended): after a resize the acting split's dragged edge is set to
the clamped `newTime`, and a split is dropped from the store exactly when it
individually violates `0 ≤ start`, `end ≤ duration` or `start < end`: every
survivor satisfies those bounds, every other split satisfying them survives
(even when it overlaps the acting split), and the adjusted acting split
survives whenever it satisfies them. -/
theorem resizeEdge_drop_policy (splits : List Split) (i : ℕ) (e : Edge)
    (t dur : ℚ) (h : i < splits.length) :
    (∀ s ∈ resizeEdge splits i e t dur, validBounds dur s = true) ∧
    (∀ j, (hj : j < splits.length) → j ≠ i → validBounds dur splits[j] = true →
      splits[j] ∈ resizeEdge splits i e t dur) ∧
    (validBounds dur (adjustSplit e splits[i] t dur) = true →
      adjustSplit e splits[i] t dur ∈ resizeEdge splits i e t dur) := by
  have hgd : splits.getD i default = splits[i] := List.getD_eq_getElem splits default h
  refine ⟨resizeEdge_mem_valid splits i e t dur h, ?_, ?_⟩
  · intro j hj hne hv
    rw [resizeEdge, if_pos h]
    apply List.mem_filter.mpr
    refine ⟨?_, hv⟩
    have hj2 : j < (splits.set i (adjustSplit e (splits.getD i default) t dur)).length := by
      simpa using hj
    have heq : (splits.set i (adjustSplit e (splits.getD i default) t dur))[j] =
        splits[j] := List.getElem_set_ne (Ne.symm hne) hj2
    have hmem := List.getElem_mem hj2
    rw [heq] at hmem
    exact hmem
  · intro hv
    rw [resizeEdge, if_pos h, ← hgd] at *
    apply List.mem_filter.mpr
    refine ⟨?_, hv⟩
    have hi2 : i < (splits.set i (adjustSplit e (splits.getD i default) t dur)).length := by
      simpa using h
    have heq : (splits.set i (adjustSplit e (splits.getD i default) t dur))[i] =
        adjustSplit e (splits.getD i default) t dur := List.getElem_set_self hi2
    have hmem := List.getElem_mem hi2
    rw [heq] at hmem
    exact hmem

/-- Witness for C2's amended theorem: in the scenario-D store, the
overlapped-but-individually-valid sibling survives the resize and the acting
split is updated. -/
theorem resizeEdge_drop_policy_witness :
    (⟨"b", "B", 10, 20⟩ : Split) ∈
      resizeEdge [⟨"a", "A", 0, 10⟩, ⟨"b", "B", 10, 20⟩] 0 .stop 15 20 ∧
    adjustSplit .stop (⟨"a", "A", 0, 10⟩ : Split) 15 20 ∈
      resizeEdge [⟨"a", "A", 0, 10⟩, ⟨"b", "B", 10, 20⟩] 0 .stop 15 20 := by
  have h := resizeEdge_drop_policy [⟨"a", "A", 0, 10⟩, ⟨"b", "B", 10, 20⟩] 0 .stop 15 20
    (by norm_num)
  constructor
  · exact h.2.1 1 (by norm_num) (by norm_num) (by norm_num [validBounds])
  · exact h.2.2 (by norm_num [validBounds, adjustSplit])

/-! Claim C5. -/

/-- C5: `add` is a no-op when the proposed interval overlaps any existing
split — in particular the proposed split `[50,70)` against the store
`[0,60)`, `[60,120)` is rejected and the store unchanged; on success the new
split is inserted keeping the store sorted (the result is a sorted
permutation of the old store plus the new split), and the split constructed
by `addSplit` carries the default name `"Song " ++ toString (count + 1)`. -/
theorem addSplit_contract :
    (∀ (l : List Split) (s : Split),
      (∃ ex ∈ l, ex.startTime < s.endTime ∧ s.startTime < ex.endTime) →
      addSplitWith l s = l) ∧
    addSplitWith [⟨"a", "Song 1", 0, 60⟩, ⟨"b", "Song 2", 60, 120⟩]
        ⟨"c", "Song 3", 50, 70⟩ =
      [⟨"a", "Song 1", 0, 60⟩, ⟨"b", "Song 2", 60, 120⟩] ∧
    (∀ (l : List Split) (s : Split),
      (∀ ex ∈ l, s.endTime ≤ ex.startTime ∨ ex.endTime ≤ s.startTime) →
      SortedByStart (addSplitWith l s) ∧ (addSplitWith l s).Perm (l ++ [s]) ∧
        s ∈ addSplitWith l s) ∧
    (∀ (ct dur : ℚ) (nid : String) (l : List Split), ¬ (dur = 0 ∨ ct < 0 ∨ dur ≤ ct) →
      addSplit ct dur nid l = addSplitWith l
        ⟨nid, "Song " ++ toString (l.length + 1), max 0 ct, min (ct + 60) dur⟩) := by
  refine ⟨addSplitWith_of_overlap, ?_, ?_, ?_⟩
  · apply addSplitWith_of_overlap
    refine ⟨⟨"a", "Song 1", 0, 60⟩, List.mem_cons_self _ _, by norm_num⟩
  · intro l s h
    rw [addSplitWith_of_free l s h]
    refine ⟨sortedByStart_insertionSort _, List.perm_insertionSort leStart _, ?_⟩
    apply (List.perm_insertionSort leStart (l ++ [s])).mem_iff.mpr
    simp
  · intro ct dur nid l hguard
    rw [addSplit, if_neg hguard]

/-- Witness for C5's theorem: a rejected overlap on a singleton store, a
successful sorted insertion before an existing split, and the default name
of a concrete `addSplit` call. -/
theorem addSplit_contract_witness :
    addSplitWith [⟨"a", "Song 1", 0, 60⟩] ⟨"c", "X", 30, 90⟩ =
      [⟨"a", "Song 1", 0, 60⟩] ∧
    SortedByStart (addSplitWith [⟨"a", "Song 1", 60, 120⟩] ⟨"c", "X", 0, 50⟩) ∧
    (addSplitWith [⟨"a", "Song 1", 60, 120⟩] ⟨"c", "X", 0, 50⟩).Perm
      ([⟨"a", "Song 1", 60, 120⟩] ++ [⟨"c", "X", 0, 50⟩]) ∧
    addSplit 130 200 "id1" [⟨"a", "Song 1", 60, 120⟩] =
      addSplitWith [⟨"a", "Song 1", 60, 120⟩] ⟨"id1", "Song 2", max 0 130, min (130 + 60) 200⟩ := by
  refine ⟨?_, ?_, ?_, ?_⟩
  · exact addSplit_contract.1 _ _ ⟨⟨"a", "Song 1", 0, 60⟩, List.mem_cons_self _ _, by norm_num⟩
  · exact (addSplit_contract.2.2.1 _ _ (by
      intro ex hex
      rcases List.mem_cons.mp hex with rfl | hex
      · norm_num
      · simp at hex)).1
  · exact (addSplit_contract.2.2.1 _ _ (by
      intro ex hex
      rcases List.mem_cons.mp hex with rfl | hex
      · norm_num
      · simp at hex)).2.1
  · exact addSplit_contract.2.2.2 130 200 "id1" _ (by norm_num)

/-! Claim C6. -/

/-- C6, counterexample: the store `[19/2, 10)` with total duration 10
satisfies all invariants, yet resizing its end handle to `newTime = 10`
assigns `endTime = max(19/2 + 1, min(10, 10)) = 21/2 > 10`: the new end does
not stay in bounds, and the acting split is then dropped by the validity
filter — refuting both "stays in bounds" and "always keeps at least 1 second
duration" for the split that remains. -/
theorem resize_clamp_out_of_bounds :
    StoreInv 10 [⟨"a", "A", 19 / 2, 10⟩] ∧
    (adjustSplit .stop ⟨"a", "A", 19 / 2, 10⟩ 10 10).endTime = 21 / 2 ∧
    ¬ (adjustSplit .stop ⟨"a", "A", 19 / 2, 10⟩ 10 10).endTime ≤ 10 ∧
    resizeEdge [⟨"a", "A", 19 / 2, 10⟩] 0 .stop 10 10 = [] := by
  refine ⟨⟨?_, ?_, ?_⟩, ?_, ?_, ?_⟩
  · norm_num [SortedByStart, leStart, List.pairwise_cons]
  · norm_num [NoOverlap, overlapFree, List.pairwise_cons]
  · intro s hs
    rcases List.mem_cons.mp hs with rfl | hs
    · norm_num
    · simp at hs
  · norm_num [adjustSplit]
  · norm_num [adjustSplit]
  · norm_num [resizeEdge, adjustSplit, validBounds, List.filter]

/-- C6 (amended): `resizeEdge` assigns
`startTime := max(0, min(newTime, endTime - 1))` and
`endTime := max(startTime + 1, min(newTime, totalDuration))` to the acting
split; the start-edge result is always nonnegative and, provided
`1 ≤ endTime`, lies in `[0, endTime - 1]` leaving at least 1 second; the
end-edge result is always at least `startTime + 1` (at least 1 second) and,
provided `startTime + 1 ≤ totalDuration`, lies in
`[startTime + 1, totalDuration]`.  Without those provisos the result can
leave the clamp range (see the counterexample). -/
theorem adjustSplit_clamp (s : Split) (t dur : ℚ) :
    ((adjustSplit .start s t dur).startTime = max 0 (min t (s.endTime - 1)) ∧
      (adjustSplit .start s t dur).endTime = s.endTime) ∧
    ((adjustSplit .stop s t dur).endTime = max (s.startTime + 1) (min t dur) ∧
      (adjustSplit .stop s t dur).startTime = s.startTime) ∧
    0 ≤ (adjustSplit .start s t dur).startTime ∧
    (1 ≤ s.endTime →
      (adjustSplit .start s t dur).startTime ≤ s.endTime - 1 ∧
      1 ≤ (adjustSplit .start s t dur).endTime - (adjustSplit .start s t dur).startTime) ∧
    s.startTime + 1 ≤ (adjustSplit .stop s t dur).endTime ∧
    (s.startTime + 1 ≤ dur → (adjustSplit .stop s t dur).endTime ≤ dur) := by
  refine ⟨⟨rfl, rfl⟩, ⟨rfl, rfl⟩, le_max_left 0 _, ?_, le_max_left _ _, ?_⟩
  · intro h1
    have hle : max 0 (min t (s.endTime - 1)) ≤ s.endTime - 1 :=
      max_le (by linarith) (min_le_right t _)
    constructor
    · exact hle
    · show 1 ≤ s.endTime - max 0 (min t (s.endTime - 1))
      linarith
  · intro h1
    exact max_le h1 (min_le_right t dur)

/-- Witness for C6's amended theorem at a concrete split, discharging both
provisos. -/
theorem adjustSplit_clamp_witness :
    (adjustSplit .start ⟨"a", "A", 2, 8⟩ 5 10).startTime ≤ 8 - 1 ∧
    (2 : ℚ) + 1 ≤ (adjustSplit .stop ⟨"a", "A", 2, 8⟩ 5 10).endTime ∧
    (adjustSplit .stop ⟨"a", "A", 2, 8⟩ 5 10).endTime ≤ 10 := by
  refine ⟨?_, ?_, ?_⟩
  · exact ((adjustSplit_clamp ⟨"a", "A", 2, 8⟩ 5 10).2.2.2.1 (by norm_num)).1
  · exact (adjustSplit_clamp ⟨"a", "A", 2, 8⟩ 5 10).2.2.2.2.1
  · exact (adjustSplit_clamp ⟨"a", "A", 2, 8⟩ 5 10).2.2.2.2.2 (by norm_num)

/-! Helper lemmas about the exported container bytes. -/

/-- Each encoded sample occupies exactly two bytes. -/
theorem encodeSample_length (q : ℚ) : (encodeSample q).length = 2 := rfl

/-- Length of a flatMap whose blocks all have length `c`. -/
theorem length_flatMap_const {α : Type _} (f : α → List ℕ) (c : ℕ)
    (h : ∀ k, (f k).length = c) : ∀ l : List α, (l.flatMap f).length = c * l.length
  | [] => by simp
  | x :: xs => by
    rw [List.flatMap_cons, List.length_append, h x,
      length_flatMap_const f c h xs, List.length_cons]
    ring

/-- Each frame occupies `2 * channels` bytes. -/
theorem frameBytes_length (b : AudioBuffer) (i : ℕ) :
    (frameBytes b i).length = 2 * b.numberOfChannels := by
  rw [frameBytes,
    length_flatMap_const (fun ch => encodeSample (b.channelData ch i)) 2
      (fun _ => rfl) (List.range b.numberOfChannels),
    List.length_range]

/-- The sample data occupies `2 * channels * frames` bytes. -/
theorem wavData_length (b : AudioBuffer) :
    (wavData b).length = 2 * b.numberOfChannels * b.length := by
  rw [wavData,
    length_flatMap_const (frameBytes b) (2 * b.numberOfChannels)
      (frameBytes_length b) (List.range b.length),
    List.length_range]

/-- Dropping `c * i` bytes of a flatMap of `c`-byte blocks lands on the
`i`-th block. -/
theorem flatMap_range'_drop {α : Type _} (f : ℕ → List α) (c : ℕ)
    (hc : ∀ k, (f k).length = c) :
    ∀ (i n s : ℕ), i < n →
      ((List.range' s n).flatMap f).drop (c * i) =
        f (s + i) ++ (List.range' (s + i + 1) (n - (i + 1))).flatMap f
  | 0, n, s, h => by
    cases n with
    | zero => omega
    | succ m =>
      rw [List.range'_succ, List.flatMap_cons]
      simp
  | i + 1, n, s, h => by
    cases n with
    | zero => omega
    | succ m =>
      rw [List.range'_succ, List.flatMap_cons]
      have h1 : c * (i + 1) = (f s).length + c * i := by rw [hc s]; ring
      rw [h1, List.drop_append]
      have h2 := flatMap_range'_drop f c hc i m (s + 1) (by omega)
      have e1 : s + 1 + i = s + (i + 1) := by omega
      have e3 : m - (i + 1) = m + 1 - (i + 1 + 1) := by omega
      rw [h2, e1, e3]

/-! Claim C3. -/

set_option maxHeartbeats 1600000 in
/-- C3: the exported container is exactly the 44-byte header followed by the
sample data; the chunk tags `RIFF`, `WAVE`, `fmt ` and `data` sit at offsets
0, 8, 12 and 36; the format-tag field at offset 20 holds 1 (linear PCM), the
bits-per-sample field at offset 34 holds 16, the channel-count field at
offset 22 and the sample-rate field at offset 24 are copied from the source
buffer; every multi-byte field is little-endian (`leValue` recombination). -/
theorem audioBufferToWav_layout (b : AudioBuffer) :
    (audioBufferToWav b).length = 44 + 2 * b.numberOfChannels * b.length ∧
    (wavHeader b.numberOfChannels b.sampleRate b.length).length = 44 ∧
    (audioBufferToWav b).take 44 = wavHeader b.numberOfChannels b.sampleRate b.length ∧
    (audioBufferToWav b).drop 44 = wavData b ∧
    (audioBufferToWav b).take 4 = asciiCodes "RIFF" ∧
    ((audioBufferToWav b).drop 8).take 4 = asciiCodes "WAVE" ∧
    ((audioBufferToWav b).drop 12).take 4 = asciiCodes "fmt " ∧
    ((audioBufferToWav b).drop 36).take 4 = asciiCodes "data" ∧
    ((audioBufferToWav b).drop 20).take 2 = le16 1 ∧
    ((audioBufferToWav b).drop 34).take 2 = le16 16 ∧
    ((audioBufferToWav b).drop 22).take 2 = le16 b.numberOfChannels ∧
    ((audioBufferToWav b).drop 24).take 4 = le32 b.sampleRate ∧
    (∀ n : ℕ, leValue (le32 n) = n % 2 ^ 32 ∧ leValue (le16 n) = n % 2 ^ 16) := by
  refine ⟨?_, rfl, rfl, rfl, rfl, rfl, rfl, rfl, rfl, rfl, rfl, rfl, ?_⟩
  · rw [audioBufferToWav, List.length_append, wavData_length]
    rfl
  · intro n
    constructor
    · show n % 256 + 256 * (n / 256 % 256 + 256 * (n / 2 ^ 16 % 256 +
        256 * (n / 2 ^ 24 % 256 + 256 * 0))) = n % 2 ^ 32
      norm_num
      omega
    · show n % 256 + 256 * (n / 256 % 256 + 256 * 0) = n % 2 ^ 16
      norm_num
      omega

/-! Claim C4. -/

/-- C4, counterexample: for the sample value `1/2` the bytes written are the
little-endian encoding of `trunc(0.5 * 32767) = 16383` (JavaScript's
`DataView.setInt16` truncates toward zero), not of
`round(0.5 * 32767) = 16384` as the claim states; a one-sample single-channel
buffer holding `1/2` therefore ends in bytes `[255, 63]`, not `[0, 64]`. -/
theorem encodeSample_truncates_not_rounds :
    jsTrunc (clampSample (1 / 2) * 32767) = 16383 ∧
    jsRound (clampSample (1 / 2) * 32767) = 16384 ∧
    encodeSample (1 / 2) = [255, 63] ∧
    int16le (jsRound (clampSample (1 / 2) * 32767)) = [0, 64] ∧
    encodeSample (1 / 2) ≠ int16le (jsRound (clampSample (1 / 2) * 32767)) ∧
    (audioBufferToWav ⟨1, 1, 8000, fun _ _ => 1 / 2⟩).drop 44 = [255, 63] := by
  have hclamp : clampSample (1 / 2) * 32767 = 32767 / 2 := by
    rw [clampSample]
    rw [min_eq_right (by norm_num : (1:ℚ)/2 ≤ 1), max_eq_right (by norm_num : (-1:ℚ) ≤ 1/2)]
    norm_num
  have htr : jsTrunc (clampSample (1 / 2) * 32767) = 16383 := by
    rw [hclamp, jsTrunc, if_pos (by norm_num : (0:ℚ) ≤ 32767 / 2)]
    norm_num
  have hrd : jsRound (clampSample (1 / 2) * 32767) = 16384 := by
    rw [hclamp, jsRound]
    norm_num
  have henc : encodeSample (1 / 2) = [255, 63] := by
    rw [encodeSample, htr]
    rfl
  refine ⟨htr, hrd, henc, by rw [hrd]; rfl, ?_, ?_⟩
  · rw [henc, hrd]
    decide
  · show wavData ⟨1, 1, 8000, fun _ _ => 1 / 2⟩ = [255, 63]
    rw [wavData]
    show frameBytes ⟨1, 1, 8000, fun _ _ => 1 / 2⟩ 0 ++ [] = [255, 63]
    rw [List.append_nil, frameBytes]
    show encodeSample (1 / 2) ++ [] = [255, 63]
    rw [List.append_nil, henc]

/-- C4 (amended): the two bytes written for frame `i`, channel `ch` are the
little-endian 16-bit two's-complement encoding of
`trunc(clamp(sample, -1, 1) * 32767)` with truncation toward zero (the
coercion `DataView.setInt16` applies), not of `round(...)`. -/
theorem wav_sample_bytes (b : AudioBuffer) (i ch : ℕ) (hi : i < b.length)
    (hch : ch < b.numberOfChannels) :
    ((audioBufferToWav b).drop (44 + 2 * (i * b.numberOfChannels + ch))).take 2 =
      int16le (jsTrunc (clampSample (b.channelData ch i) * 32767)) := by
  rw [audioBufferToWav]
  rw [show 44 + 2 * (i * b.numberOfChannels + ch) =
      (wavHeader b.numberOfChannels b.sampleRate b.length).length +
        (2 * b.numberOfChannels * i + 2 * ch) by
    rw [show (wavHeader b.numberOfChannels b.sampleRate b.length).length = 44 from rfl]
    ring]
  rw [List.drop_append, wavData, List.range_eq_range', ← List.drop_drop]
  rw [flatMap_range'_drop (frameBytes b) (2 * b.numberOfChannels)
    (frameBytes_length b) i b.length 0 hi]
  rw [List.drop_append_of_le_length (by rw [frameBytes_length]; omega)]
  rw [show (0:ℕ) + i = i from by omega]
  rw [frameBytes, List.range_eq_range']
  rw [flatMap_range'_drop (fun ch2 => encodeSample (b.channelData ch2 i)) 2
    (fun _ => rfl) ch b.numberOfChannels 0 hch]
  rw [show (0:ℕ) + ch = ch from by omega]
  rw [List.append_assoc]
  conv_lhs =>
    rw [show (2:ℕ) = (encodeSample (b.channelData ch i)).length from rfl]
  rw [List.take_left]
  rfl

/-- Witness for C4's amended theorem on a concrete one-sample buffer. -/
theorem wav_sample_bytes_witness :
    ((audioBufferToWav ⟨1, 1, 8000, fun _ _ => 1 / 2⟩).drop
        (44 + 2 * (0 * 1 + 0))).take 2 =
      int16le (jsTrunc (clampSample ((⟨1, 1, 8000, fun _ _ => 1 / 2⟩ :
        AudioBuffer).channelData 0 0) * 32767)) :=
  wav_sample_bytes ⟨1, 1, 8000, fun _ _ => 1 / 2⟩ 0 0 (by norm_num) (by norm_num)

/-! Helper lemmas about the detection pipeline. -/

/-- Reading a constant profile at any in-range index yields the constant. -/
theorem getD_replicate (n i : ℕ) (q d : ℚ) (h : i < n) :
    (List.replicate n q).getD i d = q := by
  rw [List.getD_eq_getElem (List.replicate n q) d (by simpa using h)]
  simp

/-- The mean of a nonempty constant list is the constant. -/
theorem mean_replicate (n : ℕ) (q : ℚ) (h : n ≠ 0) :
    mean (List.replicate n q) = q := by
  rw [mean, List.sum_replicate, List.length_replicate, nsmul_eq_mul]
  field_simp

/-- The mean of any all-constant slice is either the constant (nonempty) or
`0` (empty slice); in both cases it is at most the constant when the
constant is nonnegative. -/
theorem mean_replicate_le (n : ℕ) (q : ℚ) (hq : 0 ≤ q) :
    mean (List.replicate n q) ≤ q := by
  rcases Nat.eq_zero_or_pos n with rfl | hn
  · simp [mean]
    exact hq
  · rw [mean_replicate n q (by omega)]

/-- The population variance of a constant profile is zero. -/
theorem variance_replicate (n : ℕ) (q : ℚ) : variance (List.replicate n q) = 0 := by
  rcases Nat.eq_zero_or_pos n with rfl | hn
  · simp [variance, mean]
  · rw [variance, mean_replicate n q (by omega)]
    have hmap : (List.replicate n q).map (fun v => (v - q) ^ 2) =
        List.replicate n 0 := by
      rw [List.map_replicate]
      norm_num
    rw [hmap, List.sum_replicate]
    simp

/-- Smoothing a constant profile returns it unchanged: every centred window
is a nonempty slice of the constant. -/
theorem smoothVolumes_replicate (W n : ℕ) (q : ℚ) :
    smoothVolumes W (List.replicate n q) = List.replicate n q := by
  rw [smoothVolumes, List.length_replicate]
  apply List.eq_replicate_iff.mpr
  constructor
  · rw [List.length_map, List.length_range]
  · intro b hb
    rw [List.mem_map] at hb
    obtain ⟨i, hi, hb⟩ := hb
    rw [List.mem_range] at hi
    rw [← hb]
    simp only [List.drop_replicate, List.take_replicate]
    rw [mean_replicate _ q (by omega)]

/-- A left fold whose step keeps the empty accumulator empty ends empty. -/
theorem foldl_nil_invariant {α : Type _} {β : Type _}
    (f : List β → α → List β) (l : List α) (h : ∀ a ∈ l, f [] a = []) :
    l.foldl f [] = [] := by
  induction l with
  | nil => rfl
  | cons x xs ih =>
    rw [List.foldl_cons, h x (List.mem_cons_self x xs)]
    exact ih fun a ha => h a (List.mem_cons_of_mem x ha)

/-- On a constant profile of value `1/2`, with any threshold not above
`1/2`, no interior index accumulates more than the spacing criterion's
`0.2`, so the scoring loop emits no candidates. -/
theorem scoreLoop_replicate_half (thr minSong wSec : ℚ) (W n : ℕ)
    (hthr : ¬ (1 / 2 : ℚ) < thr) :
    scoreLoop thr minSong wSec W (List.replicate n (1 / 2)) = [] := by
  rw [scoreLoop]
  apply foldl_nil_invariant
  intro i hi
  rw [List.length_replicate] at hi
  rw [List.mem_range'] at hi
  obtain ⟨j, hj, rfl⟩ := hi
  have hi1 : 1 ≤ 1 + 1 * j := by omega
  have hin : 1 + 1 * j + 1 < n := by omega
  set i := 1 + 1 * j with hidef
  have hgd : ∀ k, k < n → (List.replicate n ((1:ℚ) / 2)).getD k 0 = 1 / 2 :=
    fun k hk => getD_replicate n k (1 / 2) 0 hk
  have hsd : sustainedDrop W (List.replicate n ((1:ℚ) / 2)) i = false := by
    have hmean : mean (((List.replicate n ((1:ℚ) / 2)).drop (i - min W i)).take
        (min W i)) ≤ 1 / 2 := by
      simp only [List.drop_replicate, List.take_replicate]
      exact mean_replicate_le _ _ (by norm_num)
    have hlt : ¬ ((List.replicate n ((1:ℚ) / 2)).getD i 0 <
        mean (((List.replicate n ((1:ℚ) / 2)).drop (i - min W i)).take (min W i)) *
          (1 / 2)) := by
      rw [hgd i (by omega)]
      intro hcon
      nlinarith
    show (decide _ && decide _) = false
    rw [decide_eq_false hlt, Bool.false_and]
  have hconf : confidence thr minSong wSec W (List.replicate n ((1:ℚ) / 2)) none i =
      1 / 5 := by
    rw [confidence]
    rw [hgd i (by omega), hgd (i - 1) (by omega), hgd (i + 1) (by omega)]
    rw [if_neg hthr, if_neg (by intro hcon; exact absurd hcon.1 (lt_irrefl _)), hsd]
    norm_num
  show (if (2:ℚ) / 5 < confidence thr minSong wSec W (List.replicate n (1 / 2))
      (([] : List Candidate).getLast?.map Candidate.time) i
    then ([] : List Candidate) ++ [⟨i * wSec, _⟩] else []) = []
  rw [if_neg]
  rw [show ([] : List Candidate).getLast?.map Candidate.time = none from rfl, hconf]
  norm_num

/-- One meaning of the produced volume profile: with one-sample windows, the
mean-square profile of a constant signal is the constant's square. -/
theorem meanSquares_replicate_one (n : ℕ) (q : ℚ) :
    meanSquares 1 (List.replicate n q) = List.replicate n (q * q) := by
  induction n with
  | zero => simp [meanSquares]
  | succ m ih =>
    rw [List.replicate_succ, meanSquares]
    have h1 : ((q :: List.replicate m q).take 1).map (fun v => v * v) = [q * q] := rfl
    have h3 : (List.replicate m q).drop (1 - 1) = List.replicate m q := rfl
    have h2 : mean [q * q] = q * q := by
      simp [mean]
    rw [h1, h3, h2, ih, List.replicate_succ]

/-- Segmentation of an empty quiet-region list: only the trailing song,
emitted when the full duration is long enough. -/
theorem songsOfRegions_nil (m td : ℚ) :
    songsOfRegions m td [] =
      if m ≤ td then [⟨"song-1", "Song 1", 0, td⟩] else [] := by
  rw [songsOfRegions, extractSongs]
  rw [show ("song-" ++ toString 1) = "song-1" from rfl,
    show ("Song " ++ toString 1) = "Song 1" from rfl]
  simp

/-- The `k`-th emitted split (0-based) carries name `"Song (idx + k)"` and id
`"song-(idx + k)"`: the counter increments exactly on emission. -/
theorem extract_names (m : ℚ) :
    ∀ (rs : List Region) (s : ℚ) (idx k : ℕ),
      k < (extractSongs m s idx rs).1.length →
      ((extractSongs m s idx rs).1.getD k default).name = "Song " ++ toString (idx + k) ∧
      ((extractSongs m s idx rs).1.getD k default).id = "song-" ++ toString (idx + k)
  | [], s, idx, k, h => by
    rw [extractSongs] at h
    simp at h
  | r :: rest, s, idx, k, h => by
    by_cases hc : m ≤ r.start - s
    · rw [extractSongs, if_pos hc] at h ⊢
      cases k with
      | zero => simp
      | succ k2 =>
        rw [List.getD_cons_succ]
        simp only [List.length_cons] at h
        have ih := extract_names m rest r.stop (idx + 1) k2 (by omega)
        refine ⟨?_, ?_⟩
        · rw [ih.1]
          congr 2
          omega
        · rw [ih.2]
          congr 2
          omega
    · rw [extractSongs, if_neg hc] at h ⊢
      exact extract_names m rest s idx k h

/-- The final `songIndex` is the initial one plus the number of emitted
splits. -/
theorem extract_final_index (m : ℚ) :
    ∀ (rs : List Region) (s : ℚ) (idx : ℕ),
      (extractSongs m s idx rs).2.2 = idx + (extractSongs m s idx rs).1.length
  | [], s, idx => by
    rw [extractSongs]
    simp
  | r :: rest, s, idx => by
    by_cases hc : m ≤ r.start - s
    · rw [extractSongs, if_pos hc]
      have ih := extract_final_index m rest r.stop (idx + 1)
      simp only [List.length_cons]
      omega
    · rw [extractSongs, if_neg hc]
      exact extract_final_index m rest s idx

/-- Every split of a segmentation result carries id `"song-(k+1)"` and name
`"Song (k+1)"` at position `k`, including the trailing song. -/
theorem songsOfRegions_ids (m td : ℚ) (regions : List Region) (k : ℕ)
    (h : k < (songsOfRegions m td regions).length) :
    ((songsOfRegions m td regions).getD k default).id = "song-" ++ toString (k + 1) ∧
    ((songsOfRegions m td regions).getD k default).name = "Song " ++ toString (k + 1) := by
  rw [songsOfRegions] at h ⊢
  by_cases hc : m ≤ td - (extractSongs m 0 1 regions).2.1
  · rw [if_pos hc] at h ⊢
    by_cases hk : k < (extractSongs m 0 1 regions).1.length
    · rw [List.getD_append _ _ _ _ hk]
      have hn := extract_names m regions 0 1 k hk
      refine ⟨?_, ?_⟩
      · rw [hn.2]
        congr 2
        omega
      · rw [hn.1]
        congr 2
        omega
    · rw [List.length_append] at h
      have hk2 : k = (extractSongs m 0 1 regions).1.length := by
        simp at h
        omega
      rw [List.getD_append_right _ _ _ _ (by omega), hk2, Nat.sub_self,
        List.getD_cons_zero]
      have hfi := extract_final_index m regions 0 1
      constructor
      · show "song-" ++ toString (extractSongs m 0 1 regions).2.2 = _
        rw [hfi]
        congr 2
        omega
      · show "Song " ++ toString (extractSongs m 0 1 regions).2.2 = _
        rw [hfi]
        congr 2
        omega
  · rw [if_neg hc] at h ⊢
    have hn := extract_names m regions 0 1 k h
    refine ⟨?_, ?_⟩
    · rw [hn.2]
      congr 2
      omega
    · rw [hn.1]
      congr 2
      omega

/-! Claim C7. -/

/-- C7: in song extraction a split `[songStart, region.start)` named
`"Song N"` is emitted exactly when `region.start - songStart ≥
minSongDuration`, in which case `songStart` becomes `region.end` and the
counter advances; otherwise the state is left completely unchanged.  The
`k`-th emitted split is named `"Song (idx + k)"` (`N` increments only on
emission, starting from the initial index, which `songsOfRegions` fixes at
1), and a region exactly `minSongDuration` past `songStart` does emit. -/
theorem extractSongs_spec :
    (∀ (m s : ℚ) (idx : ℕ) (r : Region) (rest : List Region),
      (m ≤ r.start - s →
        extractSongs m s idx (r :: rest) =
          (⟨"song-" ++ toString idx, "Song " ++ toString idx, s, r.start⟩ ::
              (extractSongs m r.stop (idx + 1) rest).1,
            (extractSongs m r.stop (idx + 1) rest).2)) ∧
      (r.start - s < m →
        extractSongs m s idx (r :: rest) = extractSongs m s idx rest)) ∧
    (∀ (m s : ℚ) (idx : ℕ) (rs : List Region) (k : ℕ),
      k < (extractSongs m s idx rs).1.length →
      ((extractSongs m s idx rs).1.getD k default).name =
        "Song " ++ toString (idx + k)) ∧
    (∀ (m s : ℚ) (idx : ℕ) (r : Region) (rest : List Region),
      r.start - s = m →
      extractSongs m s idx (r :: rest) =
        (⟨"song-" ++ toString idx, "Song " ++ toString idx, s, r.start⟩ ::
            (extractSongs m r.stop (idx + 1) rest).1,
          (extractSongs m r.stop (idx + 1) rest).2)) := by
  have hstep : ∀ (m s : ℚ) (idx : ℕ) (r : Region) (rest : List Region),
      m ≤ r.start - s →
      extractSongs m s idx (r :: rest) =
        (⟨"song-" ++ toString idx, "Song " ++ toString idx, s, r.start⟩ ::
            (extractSongs m r.stop (idx + 1) rest).1,
          (extractSongs m r.stop (idx + 1) rest).2) := by
    intro m s idx r rest hc
    rw [extractSongs, if_pos hc]
  refine ⟨fun m s idx r rest => ⟨hstep m s idx r rest, ?_⟩,
    fun m s idx rs k h => (extract_names m rs s idx k h).1,
    fun m s idx r rest hc => hstep m s idx r rest (le_of_eq hc.symm)⟩
  intro hc
  rw [extractSongs, if_neg (by linarith)]

/-- Witness for C7's theorem: one emitting region, one skipped region, the
positional name, and the boundary case `region.start - songStart = m`. -/
theorem extractSongs_spec_witness :
    extractSongs 10 0 1 [⟨30, 32⟩] =
      (⟨"song-" ++ toString 1, "Song " ++ toString 1, 0, 30⟩ ::
          (extractSongs 10 32 2 []).1, (extractSongs 10 32 2 []).2) ∧
    extractSongs 10 0 1 [⟨5, 7⟩] = extractSongs 10 0 1 [] ∧
    ((extractSongs 10 0 1 [⟨30, 32⟩]).1.getD 0 default).name =
      "Song " ++ toString (1 + 0) ∧
    extractSongs 10 0 1 [⟨10, 12⟩] =
      (⟨"song-" ++ toString 1, "Song " ++ toString 1, 0, 10⟩ ::
          (extractSongs 10 12 2 []).1, (extractSongs 10 12 2 []).2) := by
  refine ⟨(extractSongs_spec.1 10 0 1 ⟨30, 32⟩ []).1 (by norm_num),
    (extractSongs_spec.1 10 0 1 ⟨5, 7⟩ []).2 (by norm_num), ?_,
    extractSongs_spec.2.2 10 0 1 ⟨10, 12⟩ [] (by norm_num)⟩
  apply extractSongs_spec.2.1 10 0 1 [⟨30, 32⟩] 0
  rw [extractSongs, if_pos (by norm_num : (10:ℚ) ≤ 30 - 0)]
  simp

/-! Claim C8. -/

/-- C8: the sustained-drop test contributes exactly `+0.3` to the confidence
of interior index `i` when `smoothed[i] < 0.5 * mean(preceding window)` and
`smoothed[i] < 0.5 * mean(following window)`, where the preceding window is
the slice of length `min(W, i)` ending at `i` and the following window the
slice of length `min(W, len - i)` starting at `i` — the stated lengths are
exact for interior indices. -/
theorem sustained_drop_spec (threshold minSong wSec : ℚ) (W : ℕ)
    (sm : List ℚ) (last : Option ℚ) (i : ℕ) (_h1 : 1 ≤ i)
    (h2 : i + 1 < sm.length) :
    (confidence threshold minSong wSec W sm last i =
      (if sm.getD i 0 < threshold then 3 / 10 else 0) +
      (if sm.getD i 0 < sm.getD (i - 1) 0 ∧ sm.getD i 0 < sm.getD (i + 1) 0
        then 2 / 10 else 0) +
      (if sm.getD i 0 < (1 / 2) * mean ((sm.drop (i - min W i)).take (min W i)) ∧
          sm.getD i 0 < (1 / 2) * mean ((sm.drop i).take (min W (sm.length - i)))
        then 3 / 10 else 0) +
      (match last with
       | none => 2 / 10
       | some t => if minSong * (1 / 2) < i * wSec - t then 2 / 10 else 0)) ∧
    ((sm.drop (i - min W i)).take (min W i)).length = min W i ∧
    ((sm.drop i).take (min W (sm.length - i))).length = min W (sm.length - i) := by
  have hiff : (sustainedDrop W sm i = true) ↔
      (sm.getD i 0 < (1 / 2) * mean ((sm.drop (i - min W i)).take (min W i)) ∧
       sm.getD i 0 < (1 / 2) * mean ((sm.drop i).take (min W (sm.length - i)))) := by
    have hb : sustainedDrop W sm i =
        (decide (sm.getD i 0 <
            mean ((sm.drop (i - min W i)).take (min W i)) * (1 / 2)) &&
          decide (sm.getD i 0 <
            mean ((sm.drop i).take (min W (sm.length - i))) * (1 / 2))) := rfl
    rw [hb, Bool.and_eq_true, decide_eq_true_eq, decide_eq_true_eq,
      mul_comm (mean ((sm.drop (i - min W i)).take (min W i))) ((1:ℚ) / 2),
      mul_comm (mean ((sm.drop i).take (min W (sm.length - i)))) ((1:ℚ) / 2)]
  refine ⟨?_, ?_, ?_⟩
  · rw [confidence.eq_def]
    rw [if_congr hiff rfl rfl]
  · rw [List.length_take, List.length_drop]
    omega
  · rw [List.length_take, List.length_drop]
    omega

/-- Witness for C8's theorem at a concrete interior index: the stated window
lengths are realised. -/
theorem sustained_drop_spec_witness :
    ((([1, 1, 0, 1, 1] : List ℚ).drop (2 - min 2 2)).take (min 2 2)).length = min 2 2 ∧
    ((([1, 1, 0, 1, 1] : List ℚ).drop 2).take
        (min 2 (([1, 1, 0, 1, 1] : List ℚ).length - 2))).length =
      min 2 (([1, 1, 0, 1, 1] : List ℚ).length - 2) := by
  have h := sustained_drop_spec (1 / 10) 10 (1 / 2) 2 [1, 1, 0, 1, 1] none 2
    (by norm_num) (by simp)
  exact ⟨h.2.1, h.2.2⟩

/-! Claim C9. -/

/-- C9, counterexample: a 120-second signal at sample rate 2 (one-sample
windows) whose windowed RMS profile is uniformly `0.5` — the mean-square
profile is uniformly `0.25` and `0.5` is its nonnegative square root — run
with documented-range settings (threshold `10^(-20/20) = 1/10` from
`sensitivityDb = -20`, smoothing window 10 samples from 5 s, minimum silence
2 s, minimum song 30 s, `stdDev = 0` since the smoothed profile's variance
is 0) produces exactly ONE full-length split `[0, 120)`, not zero splits:
with no quiet regions, the trailing-song rule emits the whole recording. -/
theorem uniform_profile_detects_one_split :
    meanSquares 1 (List.replicate 240 ((1:ℚ) / 2)) = List.replicate 240 (1 / 4) ∧
    (List.replicate 240 ((1:ℚ) / 2)).map (fun v => v * v) =
      List.replicate 240 (1 / 4) ∧
    (0:ℚ) * 0 = variance (smoothVolumes 10 (List.replicate 240 (1 / 2))) ∧
    detectFromVolumes (1 / 10) 2 30 (1 / 2) 120 0 10 (List.replicate 240 (1 / 2)) =
      [⟨"song-1", "Song 1", 0, 120⟩] ∧
    ([⟨"song-1", "Song 1", 0, 120⟩] : List Split) ≠ [] := by
  have hq : ((1:ℚ) / 2) * (1 / 2) = 1 / 4 := by norm_num
  refine ⟨?_, ?_, ?_, ?_, by simp⟩
  · rw [meanSquares_replicate_one, hq]
  · rw [List.map_replicate, hq]
  · rw [smoothVolumes_replicate, variance_replicate]
    norm_num
  · rw [detectFromVolumes]
    rw [smoothVolumes_replicate 10 240 ((1:ℚ) / 2)]
    rw [mean_replicate 240 ((1:ℚ) / 2) (by norm_num)]
    have hthr : actualThreshold (1 / 10) ((1:ℚ) / 2) 0 = 1 / 2 := by
      rw [actualThreshold]
      norm_num
    rw [hthr]
    rw [scoreLoop_replicate_half (1 / 2) 30 (1 / 2) 10 240 (by norm_num)]
    rw [show quietRegionsOf 2 120 [] = [] from rfl]
    rw [songsOfRegions_nil]
    norm_num

/-- C9 (amended): for every profile that is uniformly `0.5` (any length, any
in-range settings: `thresholdLinear = 10^(dB/20) ≤ 10^(-1/2) < 1/2` for
documented `sensitivityDb ≤ -10`, and `stdDev` the nonnegative square root
of the smoothed profile's variance, which is 0), detection emits no
candidates and no quiet regions, and returns exactly one split
`[0, totalDuration)` named `"Song 1"` when `totalDuration ≥ minSongDuration`
— and zero splits only when the whole recording is shorter than
`minSongDuration`. -/
theorem detect_uniform_profile (tl minSil minSong wSec totalDur stdDev : ℚ)
    (W n : ℕ) (htl : tl ≤ 1 / 2)
    (hsd : stdDev * stdDev = variance (smoothVolumes W (List.replicate n (1 / 2))))
    (hsd0 : 0 ≤ stdDev) :
    detectFromVolumes tl minSil minSong wSec totalDur stdDev W
        (List.replicate n (1 / 2)) =
      if minSong ≤ totalDur then [⟨"song-1", "Song 1", 0, totalDur⟩] else [] := by
  have hsd2 : stdDev = 0 := by
    rw [smoothVolumes_replicate, variance_replicate] at hsd
    exact mul_self_eq_zero.mp hsd
  subst hsd2
  rw [detectFromVolumes, smoothVolumes_replicate W n ((1:ℚ) / 2)]
  rcases Nat.eq_zero_or_pos n with rfl | hn
  · rw [show scoreLoop (actualThreshold tl (mean (List.replicate 0 ((1:ℚ) / 2))) 0)
        minSong wSec W (List.replicate 0 (1 / 2)) = [] from rfl]
    rw [show quietRegionsOf minSil totalDur [] = [] from rfl]
    exact songsOfRegions_nil minSong totalDur
  · rw [mean_replicate n ((1:ℚ) / 2) (by omega)]
    have hthr : actualThreshold tl ((1:ℚ) / 2) 0 ≤ 1 / 2 := by
      rw [actualThreshold]
      apply max_le htl
      apply max_le
      · norm_num
      · norm_num
    rw [scoreLoop_replicate_half _ minSong wSec W n (not_lt.mpr hthr)]
    rw [show quietRegionsOf minSil totalDur [] = [] from rfl]
    exact songsOfRegions_nil minSong totalDur

/-- Witness for C9's amended theorem at the 120-second default-settings
instance. -/
theorem detect_uniform_profile_witness :
    detectFromVolumes (1 / 10) 2 30 (1 / 2) 120 0 10 (List.replicate 240 (1 / 2)) =
      [⟨"song-1", "Song 1", 0, 120⟩] := by
  rw [detect_uniform_profile (1 / 10) 2 30 (1 / 2) 120 0 10 240 (by norm_num)
    (by rw [smoothVolumes_replicate, variance_replicate]; norm_num) le_rfl]
  norm_num

/-! Claim C10. -/

/-- C10: detection downstream of the volume profile is a pure function —
two runs on identical inputs give identical split lists — and the ids
themselves are deterministic: the split at position `k` always carries id
`"song-(k+1)"` and name `"Song (k+1)"`, derived from its emission index. -/
theorem detectFromVolumes_deterministic :
    (∀ (tl minSil minSong wSec totalDur stdDev : ℚ) (W : ℕ) (volumes : List ℚ),
      detectFromVolumes tl minSil minSong wSec totalDur stdDev W volumes =
        detectFromVolumes tl minSil minSong wSec totalDur stdDev W volumes) ∧
    (∀ (tl minSil minSong wSec totalDur stdDev : ℚ) (W : ℕ) (volumes : List ℚ)
      (k : ℕ),
      k < (detectFromVolumes tl minSil minSong wSec totalDur stdDev W volumes).length →
      ((detectFromVolumes tl minSil minSong wSec totalDur stdDev W
          volumes).getD k default).id = "song-" ++ toString (k + 1) ∧
      ((detectFromVolumes tl minSil minSong wSec totalDur stdDev W
          volumes).getD k default).name = "Song " ++ toString (k + 1)) := by
  refine ⟨fun _ _ _ _ _ _ _ _ => rfl, ?_⟩
  intro tl minSil minSong wSec totalDur stdDev W volumes k h
  rw [detectFromVolumes] at h ⊢
  exact songsOfRegions_ids minSong totalDur _ k h

/-- Witness for C10's theorem: an empty profile with a long enough duration
yields the single trailing split, whose id and name are `song-1` and
`Song 1`. -/
theorem detectFromVolumes_deterministic_witness :
    ((detectFromVolumes (1 / 10) 2 30 (1 / 2) 120 0 10 []).getD 0 default).id =
      "song-" ++ toString (0 + 1) ∧
    ((detectFromVolumes (1 / 10) 2 30 (1 / 2) 120 0 10 []).getD 0 default).name =
      "Song " ++ toString (0 + 1) := by
  have hlen : (detectFromVolumes (1 / 10) 2 30 (1 / 2) 120 0 10 []).length = 1 := by
    rw [detectFromVolumes]
    rw [show smoothVolumes 10 ([] : List ℚ) = [] from rfl]
    rw [show scoreLoop (actualThreshold (1 / 10) (mean ([] : List ℚ)) 0) 30 (1 / 2) 10
        ([] : List ℚ) = [] from rfl]
    rw [show quietRegionsOf 2 120 [] = [] from rfl]
    rw [songsOfRegions_nil]
    norm_num
  exact detectFromVolumes_deterministic.2 (1 / 10) 2 30 (1 / 2) 120 0 10 [] 0
    (by omega)

end Splitter
